import Mathlib

/-!
# CryptoAggregator backtest engine — a verification development

Shallow embedding of `src/backtest.py` (and the shared sentiment fallback of
`src/news_api.py`) over exact rational arithmetic.  A daily record carries the
calendar-month key (`index.to_period('M')`), the adjusted close, and the
oscillator value (`None` models a pandas `NaN`).  Sentiment scores are
likewise `Option ℚ`, `none` modelling `NaN` (every pandas comparison against
`NaN` is false, which the `Option`-aware comparison helpers reproduce).
Random Gaussian noise is modelled as an injected per-day noise source
`Nat → ℚ`.  Display rounding (`round(x, 2)` / `round(x, 8)` in
`summary_table`) is presentation only and is not modelled; the summary rows
carry the unrounded values.
-/

/-- A row of the daily dataframe: calendar-month key (`to_period('M')`),
adjusted close, and the oscillator value (`none` = `NaN`). -/
structure Row where
  month : Nat
  close : ℚ
  rsi : Option ℚ
deriving DecidableEq, Repr

/-- `PortfolioState` of `backtest.py` (lines 12-16): cumulative cash
invested, accumulated units, and the per-day equity curve. -/
structure PortfolioState where
  cash_invested : ℚ
  btc_accumulated : ℚ
  value_series : List ℚ
deriving DecidableEq, Repr

/-- `series > c` on an optional (possibly-`NaN`) value: `NaN` compares false. -/
def oGT (s : Option ℚ) (c : ℚ) : Bool :=
  match s with
  | some v => decide (c < v)
  | none => false

/-- `series < c` on an optional (possibly-`NaN`) value: `NaN` compares false. -/
def oLT (s : Option ℚ) (c : ℚ) : Bool :=
  match s with
  | some v => decide (v < c)
  | none => false

/-- `series >= c` on an optional (possibly-`NaN`) value: `NaN` compares false. -/
def oGE (s : Option ℚ) (c : ℚ) : Bool :=
  match s with
  | some v => decide (c ≤ v)
  | none => false

/-- `series <= c` on an optional (possibly-`NaN`) value: `NaN` compares false. -/
def oLE (s : Option ℚ) (c : ℚ) : Bool :=
  match s with
  | some v => decide (v ≤ c)
  | none => false

/-- The RSI threshold table (`backtest.py` lines 62-65 with amounts 150/100,
and lines 230-233 with caller-supplied amounts).  The three `.loc`
assignments are sequential overwrites of an all-zero column. -/
def agentBuyAmount (low mid : ℚ) (rsi : Option ℚ) : ℚ :=
  let b : ℚ := 0
  let b := if oLT rsi 30 then low else b
  let b := if oGE rsi 30 && oLT rsi 40 then mid else b
  let b := if oGT rsi 70 then 0 else b
  b

/-- The sentiment weight table (`backtest.py` lines 107-109): weight 2 where
`Sentiment > 0.3`, weight 1 where `0 <= Sentiment <= 0.3`, else 0. -/
def newsWeight (s : Option ℚ) : ℚ :=
  let b : ℚ := 0
  let b := if oGT s (3/10) then 2 else b
  let b := if oGE s 0 && oLE s (3/10) then 1 else b
  b

/-- Sum of the `Buy_USD` column over the rows of one calendar month
(`group['Buy_USD'].sum()` for the month-`m` group). -/
def monthTotal (rows : List (Nat × ℚ)) (m : Nat) : ℚ :=
  ((rows.filter (fun p => p.1 == m)).map Prod.snd).sum

/-- Position of the first row of month `m`, scanning from index `i`. -/
def firstIdxGo (m : Nat) : Nat → List (Nat × ℚ) → Option Nat
  | _, [] => none
  | i, p :: rest => if p.1 == m then some i else firstIdxGo m (i + 1) rest

/-- `group.index[0]` for the month-`m` group: the index of the first trading
day of that month. -/
def firstIdxOfMonth (rows : List (Nat × ℚ)) (m : Nat) : Option Nat :=
  firstIdxGo m 0 rows

/-- One row of the monthly rescale in `run_backtest.scale_month`
(`backtest.py` lines 239-248): with `T` the month's raw total, a zero total
sends the whole budget to the month's first trading day and leaves the other
rows untouched, otherwise the row is scaled by `budget / T`. -/
def scaleRow (budget T : ℚ) (isFirst : Bool) (b : ℚ) : ℚ :=
  if T ≤ 0 then (if isFirst then budget else b) else b * (budget / T)

/-- Walk the dataframe applying `scaleRow` with the month totals taken over
the whole frame `all`; `i` is the absolute index of the head of `rest`. -/
def normGo (budget : ℚ) (all : List (Nat × ℚ)) : Nat → List (Nat × ℚ) → List (Nat × ℚ)
  | _, [] => []
  | i, p :: rest =>
      (p.1, scaleRow budget (monthTotal all p.1)
        (firstIdxOfMonth all p.1 == some i) p.2) :: normGo budget all (i + 1) rest

/-- `df.groupby('Month').apply(scale_month)` of `run_backtest`
(`backtest.py` lines 235-249): per-month rescale of the `Buy_USD` column so
each month's spend totals `budget`.  Dates are strictly increasing (spec
§3), so the groupby reassembly preserves the original row order and the
rescale is the row-wise map below. -/
def normalizeBudget (budget : ℚ) (rows : List (Nat × ℚ)) : List (Nat × ℚ) :=
  normGo budget rows 0 rows

/-- One row of the monthly rescale in `simulate_news_based_dca.scale_month`
(`backtest.py` lines 112-120): same policy, written there as
`(b / total) * budget`. -/
def newsScaleRow (budget T : ℚ) (isFirst : Bool) (b : ℚ) : ℚ :=
  if T ≤ 0 then (if isFirst then budget else b) else (b / T) * budget

/-- Walk for `newsNormalize`, mirroring `normGo`. -/
def newsNormGo (budget : ℚ) (all : List (Nat × ℚ)) : Nat → List (Nat × ℚ) → List (Nat × ℚ)
  | _, [] => []
  | i, p :: rest =>
      (p.1, newsScaleRow budget (monthTotal all p.1)
        (firstIdxOfMonth all p.1 == some i) p.2) :: newsNormGo budget all (i + 1) rest

/-- `df.groupby('Month').apply(scale_month)` of `simulate_news_based_dca`
(`backtest.py` lines 111-122). -/
def newsNormalize (budget : ℚ) (rows : List (Nat × ℚ)) : List (Nat × ℚ) :=
  newsNormGo budget rows 0 rows

/-- Running sums with accumulator `acc` (`Series.cumsum()`). -/
def cumsumGo (acc : ℚ) : List ℚ → List ℚ
  | [] => []
  | x :: rest => (acc + x) :: cumsumGo (acc + x) rest

/-- `Series.cumsum()`. -/
def cumsum (l : List ℚ) : List ℚ := cumsumGo 0 l

/-- Walk for `sipBuys`: `seen` is the set of months whose first trading day
has already passed. -/
def sipBuysGo (A : ℚ) : List Nat → List Nat → List ℚ
  | _, [] => []
  | seen, m :: rest =>
      (if seen.contains m then 0 else A) :: sipBuysGo A (m :: seen) rest

/-- The SIP buy column (`backtest.py` lines 45-48):
`df.groupby('Month').head(1).index` marks the first trading day of each
calendar month; those rows buy `A`, all others 0. -/
def sipBuys (A : ℚ) (months : List Nat) : List ℚ := sipBuysGo A [] months

/-- `simulate_sip` (`backtest.py` lines 40-56).  `none` models the
`IndexError` that `iloc[-1]` raises on an empty frame. -/
def simulate_sip (rows : List Row) (monthly_amount : ℚ) : Option PortfolioState :=
  let closes := rows.map Row.close
  let buys := sipBuys monthly_amount (rows.map Row.month)
  let unitsB := List.zipWith (fun b c => b / c) buys closes
  let unitsCum := cumsum unitsB
  let values := List.zipWith (fun u c => u * c) unitsCum closes
  match (cumsum buys).getLast?, unitsCum.getLast? with
  | some cash, some units => some ⟨cash, units, values⟩
  | _, _ => none

/-- The cumulative-units/value pipeline shared by `simulate_agentic_dca`
(`backtest.py` lines 67-73) and the inline agent block of `run_backtest`
(lines 254-260, "reuse value calc"): `cash_invested` is `Buy_USD.sum()`,
and `none` models the `IndexError` of `btc_accumulated.iloc[-1]` on an
empty frame. -/
def agentState (df : List Row) (buys : List ℚ) : Option PortfolioState :=
  let closes := df.map Row.close
  let unitsB := List.zipWith (fun b c => b / c) buys closes
  let unitsCum := cumsum unitsB
  let values := List.zipWith (fun u c => u * c) unitsCum closes
  match unitsCum.getLast? with
  | some units => some ⟨buys.sum, units, values⟩
  | none => none

/-- `simulate_agentic_dca` (`backtest.py` lines 59-73): threshold amounts
150/100 hard-coded, then the shared pipeline. -/
def simulate_agentic_dca (rows : List Row) : Option PortfolioState :=
  agentState rows (rows.map (fun r => agentBuyAmount 150 100 r.rsi))

/-- Pandas `clip(lo, hi)` on a defined value. -/
def clip (lo hi x : ℚ) : ℚ := min hi (max lo x)

/-- `Series.pct_change(7)`: `none` models the `NaN` of the first seven rows. -/
def pctChange7 (closes : List ℚ) : List (Option ℚ) :=
  (List.range closes.length).map fun i =>
    if i < 7 then none
    else
      match closes[i]?, closes[i - 7]? with
      | some c, some p => some ((c - p) / p)
      | _, _ => none

/-- `simulate_news_sentiment` (`backtest.py` lines 76-90), identical to
`_simulate_sentiment_fallback` (`news_api.py` lines 333-340): the 7-day
return is clipped to ±0.15, rescaled by /0.15, perturbed by the injected
per-day noise, and the sum clipped to [-1, 1].  A `NaN` return stays `NaN`
through every step. -/
def simulate_news_sentiment (closes : List ℚ) (noise : Nat → ℚ) : List (Option ℚ) :=
  let noiseL := (List.range closes.length).map noise
  List.zipWith
    (fun r n => r.map (fun v => clip (-1) 1 (clip (-(3/20)) (3/20) v / (3/20) + n)))
    (pctChange7 closes) noiseL

/-- Mutable loop state of `simulate_news_based_dca` (`backtest.py` lines
125-127): `btc_holdings`, `cash_invested_total`, `cash_reserve`. -/
structure NewsState where
  holdings : ℚ
  invested : ℚ
  reserve : ℚ
deriving DecidableEq, Repr

/-- The buy half of one loop iteration (`backtest.py` lines 132-136). -/
def newsBuyStep (s : NewsState) (close buyAmt : ℚ) : NewsState :=
  if 0 < buyAmt then ⟨s.holdings + buyAmt / close, s.invested + buyAmt, s.reserve⟩ else s

/-- The sell half of one loop iteration (`backtest.py` lines 139-144):
on sentiment `< -0.3` with positive holdings, 20% of the (post-buy) units
are sold at the close and the proceeds join the cash reserve. -/
def newsSellStep (s : NewsState) (close : ℚ) (senti : Option ℚ) : NewsState :=
  if oLT senti (-(3/10)) && decide (0 < s.holdings) then
    ⟨s.holdings - s.holdings * (1/5), s.invested, s.reserve + s.holdings * (1/5) * close⟩
  else s

/-- One full loop iteration: buy, then sell against the post-buy state. -/
def newsDayStep (s : NewsState) (close : ℚ) (senti : Option ℚ) (buyAmt : ℚ) : NewsState :=
  newsSellStep (newsBuyStep s close buyAmt) close senti

/-- The per-day states produced by the loop of `simulate_news_based_dca`
(`backtest.py` lines 130-146), day `i`'s entry being the state after that
day's buy and sell. -/
def newsRunGo (s : NewsState) : List (ℚ × Option ℚ × ℚ) → List NewsState
  | [] => []
  | (c, senti, b) :: rest =>
      let s2 := newsDayStep s c senti b
      s2 :: newsRunGo s2 rest

/-- The per-day (close, sentiment, normalized buy) triples consumed by the
loop of `simulate_news_based_dca`. -/
def newsDays (rows : List Row) (noise : Nat → ℚ) (budget : ℚ) :
    List (ℚ × Option ℚ × ℚ) :=
  let closes := rows.map Row.close
  let sentis := simulate_news_sentiment closes noise
  let weights := sentis.map newsWeight
  let buys := (newsNormalize budget ((rows.map Row.month).zip weights)).map Prod.snd
  closes.zip (sentis.zip buys)

/-- The per-day loop states of `simulate_news_based_dca`. -/
def newsStatesOf (rows : List Row) (noise : Nat → ℚ) (budget : ℚ) : List NewsState :=
  newsRunGo ⟨0, 0, 0⟩ (newsDays rows noise budget)

/-- `simulate_news_based_dca` (`backtest.py` lines 93-154): weights from the
sentiment table, per-month budget normalization, then the day-by-day
buy/sell loop; day `i`'s portfolio value is
`holdings * close + cash_reserve` after that day's trades. -/
def simulate_news_based_dca (rows : List Row) (noise : Nat → ℚ) (budget : ℚ) :
    PortfolioState :=
  let closes := rows.map Row.close
  let states := newsStatesOf rows noise budget
  let values := List.zipWith (fun (s : NewsState) c => s.holdings * c + s.reserve) states closes
  let fin := states.getLastD ⟨0, 0, 0⟩
  ⟨fin.invested, fin.holdings, values⟩

/-- Minimum of a list (`Series.min()`), `none` on the empty list. -/
def listMin : List ℚ → Option ℚ
  | [] => none
  | x :: rest =>
      some (match listMin rest with
            | none => x
            | some y => min x y)

/-- Walk for `cummax`: running maximum with current maximum `cur`. -/
def cummaxGo (cur : ℚ) : List ℚ → List ℚ
  | [] => []
  | x :: rest => max cur x :: cummaxGo (max cur x) rest

/-- `Series.cummax()`. -/
def cummax : List ℚ → List ℚ
  | [] => []
  | x :: rest => x :: cummaxGo x rest

/-- `max_drawdown` (`backtest.py` lines 157-161): minimum over the series of
`(V - running_max) / running_max`, times 100.  `none` models the `NaN` that
`min()` yields on an empty series. -/
def max_drawdown (series : List ℚ) : Option ℚ :=
  (listMin (List.zipWith (fun v m => (v - m) / m) series (cummax series))).map (· * 100)

/-- The ROI convention of `summary_table` (`backtest.py` lines 168-169,
185): the percentage formula when any cash was invested, else 0. -/
def roiOf (invested latest : ℚ) : ℚ :=
  if 0 < invested then (latest - invested) / invested * 100 else 0

/-- One summary row (display rounding omitted). -/
structure SummaryRow where
  strategy : String
  invested : ℚ
  btc : ℚ
  value : ℚ
  roi : ℚ
  mdd : ℚ
deriving DecidableEq, Repr

/-- The per-strategy block of `summary_table`: `none` models the
`IndexError` of `value_series.iloc[-1]` on an empty curve. -/
def strategyRow (name : String) (st : PortfolioState) : Option SummaryRow :=
  match st.value_series.getLast?, max_drawdown st.value_series with
  | some latest, some mdd =>
      some ⟨name, st.cash_invested, st.btc_accumulated, latest,
            roiOf st.cash_invested latest, mdd⟩
  | _, _ => none

/-- `summary_table` (`backtest.py` lines 164-194): two rows, plus a third
when the news strategy ran. -/
def summary_table (sip agent : PortfolioState) (news : Option PortfolioState) :
    Option (List SummaryRow) :=
  match strategyRow "Benchmark SIP" sip, strategyRow "RSI-Based DCA" agent with
  | some r1, some r2 =>
      match news with
      | none => some [r1, r2]
      | some n =>
          match strategyRow "News Sentiment DCA" n with
          | some r3 => some [r1, r2, r3]
          | none => none
  | _, _ => none

/-- The two failure modes of `run_backtest`: the explicit `RuntimeError`
for an empty fetched series, and the `IndexError` that `iloc[-1]` raises
when every fetched row lacks an oscillator value. -/
inductive BtErr where
  | fetchEmpty
  | indexError
deriving DecidableEq, Repr

/-- The result bundle of `run_backtest`. -/
structure BtResult where
  summary : List SummaryRow
  sip : PortfolioState
  agent : PortfolioState
  news : Option PortfolioState
deriving DecidableEq, Repr

/-- The inline agent buy column of `run_backtest` (`backtest.py` lines
229-249): the caller-parameterized threshold table, optionally rescaled
per month by `scale_month`. -/
def inlineAgentBuys (sip_amount low mid : ℚ) (equalBudget : Bool) (df : List Row) : List ℚ :=
  let rawAgent := df.map (fun r => (r.month, agentBuyAmount low mid r.rsi))
  (if equalBudget then normalizeBudget sip_amount rawAgent else rawAgent).map Prod.snd

/-- `run_backtest` (`backtest.py` lines 212-268) from the fetched,
RSI-annotated frame onward (fetching and the RSI computation itself are
external collaborators; `rsi = none` models a `NaN` oscillator value).
The frame is checked for emptiness, rows without an oscillator value are
dropped, the inline agent pipeline (threshold table, optional monthly
normalization, cumulative units) runs next to `simulate_sip` and optionally
`simulate_news_based_dca`, and `summary_table` closes the run. -/
def run_backtest (rows : List Row) (sip_amount low mid : ℚ)
    (equalBudget includeNews : Bool) (noise : Nat → ℚ) : Except BtErr BtResult :=
  if rows.isEmpty then .error .fetchEmpty else
  let df := rows.filter (fun r => r.rsi.isSome)
  match simulate_sip df sip_amount with
  | none => .error .indexError
  | some sip =>
    match agentState df (inlineAgentBuys sip_amount low mid equalBudget df) with
    | none => .error .indexError
    | some agent =>
      let news := if includeNews then some (simulate_news_based_dca df noise sip_amount) else none
      match summary_table sip agent news with
      | none => .error .indexError
      | some s => .ok ⟨s, sip, agent, news⟩

/-- `True` on an `ok` result. -/
def btOk : Except BtErr BtResult → Bool
  | .ok _ => true
  | .error _ => false

/-! ## Monthly budget normalization (C1) -/

theorem monthTotal_nil (m : Nat) : monthTotal [] m = 0 := rfl

theorem monthTotal_cons (p : Nat × ℚ) (rest : List (Nat × ℚ)) (m : Nat) :
    monthTotal (p :: rest) m = (if p.1 == m then p.2 else 0) + monthTotal rest m := by
  by_cases h : p.1 == m <;> simp [monthTotal, List.filter_cons, h]

theorem newsScaleRow_eq_scaleRow (budget T : ℚ) (f : Bool) (b : ℚ) :
    newsScaleRow budget T f b = scaleRow budget T f b := by
  unfold newsScaleRow scaleRow
  split
  · rfl
  · ring

theorem newsNormGo_eq_normGo (budget : ℚ) (all : List (Nat × ℚ)) :
    ∀ (rest : List (Nat × ℚ)) (i : Nat),
      newsNormGo budget all i rest = normGo budget all i rest := by
  intro rest
  induction rest with
  | nil => intro i; rfl
  | cons p rest ih =>
      intro i
      simp [newsNormGo, normGo, newsScaleRow_eq_scaleRow, ih]

theorem newsNormalize_eq_normalizeBudget (budget : ℚ) (rows : List (Nat × ℚ)) :
    newsNormalize budget rows = normalizeBudget budget rows := by
  unfold newsNormalize normalizeBudget
  exact newsNormGo_eq_normGo budget rows rows 0

theorem normGo_monthTotal_pos (budget : ℚ) (all : List (Nat × ℚ)) (m : Nat)
    (hT : 0 < monthTotal all m) :
    ∀ (rest : List (Nat × ℚ)) (i : Nat),
      monthTotal (normGo budget all i rest) m
        = monthTotal rest m * (budget / monthTotal all m) := by
  intro rest
  induction rest with
  | nil => intro i; simp [normGo, monthTotal_nil]
  | cons p rest ih =>
      intro i
      by_cases h : p.1 == m
      · have hm : p.1 = m := by simpa using h
        simp only [normGo, monthTotal_cons, h, if_pos, ih (i + 1), hm, scaleRow,
          not_le.mpr hT, if_neg, if_false, beq_self_eq_true, if_true]
        ring
      · simp only [normGo, monthTotal_cons, h, ih (i + 1)]
        simp

/-- Whether the walk over `rest` starting at absolute index `i` meets a
month-`m` row whose absolute index is the distinguished index `f`. -/
def hitsFirst (m : Nat) (f : Option Nat) : Nat → List (Nat × ℚ) → Bool
  | _, [] => false
  | i, p :: rest => (f == some i && p.1 == m) || hitsFirst m f (i + 1) rest

theorem hitsFirst_false_of_lt (m : Nat) (k : Nat) :
    ∀ (rest : List (Nat × ℚ)) (i : Nat), k < i → hitsFirst m (some k) i rest = false := by
  intro rest
  induction rest with
  | nil => intro i _; rfl
  | cons p rest ih =>
      intro i hk
      have h1 : (some k == some i) = false := by
        simp [Nat.ne_of_lt hk]
      simp [hitsFirst, h1, ih (i + 1) (Nat.lt_succ_of_lt hk)]

theorem normGo_monthTotal_zero (budget : ℚ) (all : List (Nat × ℚ)) (m : Nat)
    (hT : monthTotal all m ≤ 0) :
    ∀ (rest : List (Nat × ℚ)) (i : Nat),
      (∀ p ∈ rest, p.1 = m → p.2 = 0) →
      monthTotal (normGo budget all i rest) m
        = if hitsFirst m (firstIdxOfMonth all m) i rest then budget else 0 := by
  intro rest
  induction rest with
  | nil => intro i _; simp [normGo, monthTotal_nil, hitsFirst]
  | cons p rest ih =>
      intro i hzero
      have hrest : ∀ q ∈ rest, q.1 = m → q.2 = 0 := fun q hq => hzero q (List.mem_cons_of_mem p hq)
      by_cases h : p.1 == m
      · have hm : p.1 = m := by simpa using h
        have hb : p.2 = 0 := hzero p (List.mem_cons_self p rest) hm
        by_cases hf : firstIdxOfMonth all m == some i
        · have hf' : firstIdxOfMonth all m = some i := by simpa using hf
          have htail : hitsFirst m (firstIdxOfMonth all m) (i + 1) rest = false := by
            rw [hf']
            exact hitsFirst_false_of_lt m i rest (i + 1) (Nat.lt_succ_self i)
          simp only [normGo, monthTotal_cons, h, if_pos, hm, scaleRow, hT, if_true,
            ih (i + 1) hrest, hitsFirst, htail]
          simp [hf', hb]
        · have hfeq : (firstIdxOfMonth all m == some i) = false := by
            simpa using hf
          simp only [normGo, monthTotal_cons, h, if_pos, hm, scaleRow, hT, if_true,
            ih (i + 1) hrest, hitsFirst, hfeq]
          simp [hb]
      · have hm : ¬ p.1 = m := by simpa using h
        simp only [normGo, monthTotal_cons, h, ih (i + 1) hrest, hitsFirst]
        simp [hm, h]

theorem firstIdx_hits (m : Nat) :
    ∀ (l : List (Nat × ℚ)) (i : Nat), (∃ p ∈ l, p.1 = m) →
      hitsFirst m (firstIdxGo m i l) i l = true := by
  intro l
  induction l with
  | nil => intro i h; simp at h
  | cons p rest ih =>
      intro i hin
      by_cases h : p.1 == m
      · simp [hitsFirst, firstIdxGo, h]
      · have hm : ¬ p.1 = m := by simpa using h
        have hin' : ∃ q ∈ rest, q.1 = m := by
          obtain ⟨q, hq, hqm⟩ := hin
          rcases List.mem_cons.mp hq with rfl | hq'
          · exact absurd hqm hm
          · exact ⟨q, hq', hqm⟩
        simp [hitsFirst, firstIdxGo, h, ih (i + 1) hin']

theorem month_entries_zero (rows : List (Nat × ℚ)) (m : Nat)
    (hpos : ∀ p ∈ rows, 0 ≤ p.2) (hT : monthTotal rows m ≤ 0) :
    ∀ p ∈ rows, p.1 = m → p.2 = 0 := by
  intro p hp hpm
  have hmem : p.2 ∈ (rows.filter (fun q => q.1 == m)).map Prod.snd := by
    exact List.mem_map_of_mem Prod.snd (List.mem_filter.mpr ⟨hp, by simpa using hpm⟩)
  have hall : ∀ x ∈ (rows.filter (fun q => q.1 == m)).map Prod.snd, (0:ℚ) ≤ x := by
    intro x hx
    obtain ⟨q, hq, rfl⟩ := List.mem_map.mp hx
    exact hpos q (List.mem_of_mem_filter hq)
  have hle : p.2 ≤ monthTotal rows m := List.single_le_sum hall p.2 hmem
  have h0 : 0 ≤ p.2 := hpos p hp
  linarith

theorem normalizeBudget_monthTotal (budget : ℚ) (rows : List (Nat × ℚ)) (m : Nat)
    (hpos : ∀ p ∈ rows, 0 ≤ p.2) (hm : ∃ p ∈ rows, p.1 = m) :
    monthTotal (normalizeBudget budget rows) m = budget := by
  by_cases hT : 0 < monthTotal rows m
  · rw [normalizeBudget, normGo_monthTotal_pos budget rows m hT rows 0]
    field_simp
  · have hT' : monthTotal rows m ≤ 0 := le_of_not_lt hT
    rw [normalizeBudget,
      normGo_monthTotal_zero budget rows m hT' rows 0 (month_entries_zero rows m hpos hT'),
      firstIdxOfMonth, firstIdx_hits m rows 0 hm]
    rfl

theorem agentBuyAmount_nonneg (low mid : ℚ) (r : Option ℚ)
    (hlow : 0 ≤ low) (hmid : 0 ≤ mid) : 0 ≤ agentBuyAmount low mid r := by
  simp only [agentBuyAmount]
  split_ifs <;> simp [hlow, hmid]

theorem newsWeight_nonneg (s : Option ℚ) : 0 ≤ newsWeight s := by
  simp only [newsWeight]
  split_ifs <;> norm_num

theorem exists_fst_zip {α β : Type} [BEq α] (m : α) :
    ∀ (l1 : List α) (l2 : List β), m ∈ l1 → l1.length ≤ l2.length →
      ∃ p ∈ l1.zip l2, p.1 = m := by
  intro l1
  induction l1 with
  | nil => intro l2 h; simp at h
  | cons a l1 ih =>
      intro l2 hm hlen
      match l2 with
      | [] => simp at hlen
      | b :: l2 =>
          rcases List.mem_cons.mp hm with rfl | hm'
          · exact ⟨(m, b), List.mem_cons_self _ _, rfl⟩
          · obtain ⟨p, hp, hpm⟩ := ih l2 hm' (by simpa using hlen)
            exact ⟨p, List.mem_cons_of_mem _ hp, hpm⟩

/-- C1: with monthly budget normalization enabled, both for the RSI-sized
raw amounts and for the sentiment-weight raw amounts, each calendar month's
normalized buy amounts sum exactly to the target budget (zero-signal months
place the full budget on their first trading day). -/
theorem monthly_normalization_matches_budget
    (months : List Nat) (rsis sentis : List (Option ℚ)) (budget low mid : ℚ) (m : Nat)
    (hb : 0 < budget) (hlow : 0 ≤ low) (hmid : 0 ≤ mid)
    (hlen1 : months.length ≤ rsis.length) (hlen2 : months.length ≤ sentis.length)
    (hm : m ∈ months) :
    monthTotal (normalizeBudget budget (months.zip (rsis.map (agentBuyAmount low mid)))) m
      = budget ∧
    monthTotal (newsNormalize budget (months.zip (sentis.map newsWeight))) m = budget := by
  constructor
  · apply normalizeBudget_monthTotal
    · intro p hp
      have h2 := (List.of_mem_zip hp).2
      obtain ⟨r, _, hr⟩ := List.mem_map.mp h2
      rw [← hr]
      exact agentBuyAmount_nonneg low mid r hlow hmid
    · exact exists_fst_zip m months _ hm (by simpa using hlen1)
  · rw [newsNormalize_eq_normalizeBudget]
    apply normalizeBudget_monthTotal
    · intro p hp
      have h2 := (List.of_mem_zip hp).2
      obtain ⟨r, _, hr⟩ := List.mem_map.mp h2
      rw [← hr]
      exact newsWeight_nonneg r
    · exact exists_fst_zip m months _ hm (by simpa using hlen2)

/-- Witness for C1 at a concrete two-day month. -/
theorem monthly_normalization_matches_budget_witness :
    monthTotal (normalizeBudget 100 ([0, 0].zip ([some 20, some 50].map (agentBuyAmount 150 100)))) 0
      = 100 ∧
    monthTotal (newsNormalize 100 ([0, 0].zip ([some 1, some (-1)].map newsWeight))) 0 = 100 :=
  monthly_normalization_matches_budget [0, 0] [some 20, some 50] [some 1, some (-1)]
    100 150 100 0 (by norm_num) (by norm_num) (by norm_num)
    (by decide) (by decide) (by decide)

/-! ## The fixed-schedule strategy (C2) -/

theorem cumsumGo_length (acc : ℚ) (l : List ℚ) : (cumsumGo acc l).length = l.length := by
  induction l generalizing acc with
  | nil => rfl
  | cons x rest ih => simp [cumsumGo, ih]

theorem sipBuysGo_length (A : ℚ) (seen ms : List Nat) :
    (sipBuysGo A seen ms).length = ms.length := by
  induction ms generalizing seen with
  | nil => rfl
  | cons m rest ih => simp [sipBuysGo, ih]

theorem cumsumGo_getLast (l : List ℚ) :
    ∀ (acc : ℚ), l ≠ [] → (cumsumGo acc l).getLast? = some (acc + l.sum) := by
  induction l with
  | nil => intro acc h; exact absurd rfl h
  | cons x rest ih =>
      intro acc _
      match rest, ih with
      | [], _ => simp [cumsumGo]
      | y :: rest', ih =>
          rw [cumsumGo, cumsumGo, List.getLast?_cons_cons, ← cumsumGo]
          rw [ih (acc + x) (by simp)]
          simp [add_assoc]

theorem cumsumGo_getElem (l : List ℚ) :
    ∀ (acc : ℚ) (i : Nat), i < l.length →
      (cumsumGo acc l)[i]? = some (acc + (l.take (i + 1)).sum) := by
  induction l with
  | nil => intro acc i h; simp at h
  | cons x rest ih =>
      intro acc i h
      match i with
      | 0 => simp [cumsumGo]
      | i + 1 =>
          rw [cumsumGo]
          simp only [List.getElem?_cons_succ]
          rw [ih (acc + x) i (by simpa using h)]
          simp [add_assoc]

theorem sipBuysGo_getElem (A : ℚ) (ms : List Nat) :
    ∀ (seen : List Nat) (i : Nat) (hi : i < ms.length),
      (sipBuysGo A seen ms)[i]?
        = some (if ms.get ⟨i, hi⟩ ∈ seen ∨ ms.get ⟨i, hi⟩ ∈ ms.take i then 0 else A) := by
  induction ms with
  | nil => intro seen i hi; simp at hi
  | cons m rest ih =>
      intro seen i hi
      match i with
      | 0 =>
          simp only [sipBuysGo, List.getElem?_cons_zero, List.get, List.take, List.not_mem_nil,
            or_false]
          by_cases h : m ∈ seen
          · simp [h, List.elem_iff.mpr h]
          · have : seen.contains m = false := by
              simpa using h
            simp [h, this]
      | i + 1 =>
          simp only [sipBuysGo, List.getElem?_cons_succ]
          rw [ih (m :: seen) i (by simpa using hi)]
          congr 1
          have : (rest.get ⟨i, by simpa using hi⟩ ∈ m :: seen ∨
                    rest.get ⟨i, by simpa using hi⟩ ∈ rest.take i)
              ↔ ((m :: rest).get ⟨i + 1, hi⟩ ∈ seen ∨
                    (m :: rest).get ⟨i + 1, hi⟩ ∈ (m :: rest).take (i + 1)) := by
            simp only [List.get_cons_succ, List.take_succ_cons, List.mem_cons]
            tauto
          simp only [eq_iff_iff] at this ⊢
          rw [if_congr this rfl rfl]

theorem sipBuysGo_sum (A : ℚ) (ms : List Nat) :
    ∀ (seen : List Nat),
      (sipBuysGo A seen ms).sum = A * ((ms.toFinset \ seen.toFinset).card : ℚ) := by
  induction ms with
  | nil => intro seen; simp [sipBuysGo]
  | cons m rest ih =>
      intro seen
      rw [sipBuysGo, List.sum_cons, ih (m :: seen)]
      by_cases h : m ∈ seen
      · have hc : seen.contains m = true := List.elem_iff.mpr h
        have h1 : (m :: rest).toFinset \ seen.toFinset = rest.toFinset \ seen.toFinset := by
          ext x
          simp only [List.toFinset_cons, Finset.mem_sdiff, Finset.mem_insert, List.mem_toFinset]
          constructor
          · rintro ⟨rfl | hx, hns⟩
            · exact absurd h hns
            · exact ⟨hx, hns⟩
          · rintro ⟨hx, hns⟩
            exact ⟨Or.inr hx, hns⟩
        have h2 : (m :: seen).toFinset = seen.toFinset := by
          simp [List.toFinset_cons, Finset.insert_eq_self.mpr (List.mem_toFinset.mpr h)]
        rw [hc, if_pos rfl, h1, h2]
        ring
      · have hc : seen.contains m = false := by simpa using h
        have h1 : (m :: rest).toFinset \ seen.toFinset
            = insert m (rest.toFinset \ seen.toFinset) := by
          ext x
          simp only [List.toFinset_cons, Finset.mem_sdiff, Finset.mem_insert, List.mem_toFinset]
          constructor
          · rintro ⟨rfl | hx, hns⟩
            · exact Or.inl rfl
            · exact Or.inr ⟨hx, hns⟩
          · rintro (rfl | ⟨hx, hns⟩)
            · exact ⟨Or.inl rfl, h⟩
            · exact ⟨Or.inr hx, hns⟩
        have h2 : rest.toFinset \ (m :: seen).toFinset
            = (rest.toFinset \ seen.toFinset).erase m := by
          ext x
          simp only [List.toFinset_cons, Finset.mem_sdiff, Finset.mem_insert, Finset.mem_erase,
            List.mem_toFinset]
          tauto
        rw [hc, h1, h2]
        have hcard : (insert m (rest.toFinset \ seen.toFinset)).card
            = ((rest.toFinset \ seen.toFinset).erase m).card + 1 := by
          by_cases hm : m ∈ rest.toFinset \ seen.toFinset
          · rw [Finset.card_erase_of_mem hm, Finset.insert_eq_self.mpr hm]
            have hpos : 0 < (rest.toFinset \ seen.toFinset).card := Finset.card_pos.mpr ⟨m, hm⟩
            omega
          · rw [Finset.card_insert_of_not_mem hm, Finset.erase_eq_of_not_mem hm]
        rw [hcard]
        push_cast
        ring

/-- C2: the SIP simulator buys exactly `A` on the first trading day of each
calendar month present in the series and 0 elsewhere; `cash_invested` is
`A` times the number of distinct months; `btc_accumulated` is the sum of
`buy/close` over all days; and each day's equity value is the accumulated
units times that day's close. -/
theorem sip_contract (rows : List Row) (A : ℚ) (st : PortfolioState)
    (h : simulate_sip rows A = some st) :
    (∀ (i : Nat) (hi : i < (rows.map Row.month).length),
       (sipBuys A (rows.map Row.month))[i]?
         = some (if (rows.map Row.month)[i] ∈ (rows.map Row.month).take i then 0 else A)) ∧
    st.cash_invested = A * (((rows.map Row.month).dedup.length : ℚ)) ∧
    st.btc_accumulated
      = (List.zipWith (fun b c => b / c)
          (sipBuys A (rows.map Row.month)) (rows.map Row.close)).sum ∧
    (∀ (i : Nat) (hi : i < (rows.map Row.close).length),
       st.value_series[i]?
         = some (((List.zipWith (fun b c => b / c)
             (sipBuys A (rows.map Row.month)) (rows.map Row.close)).take (i + 1)).sum
           * (rows.map Row.close)[i])) := by
  have hne : rows ≠ [] := by
    intro hnil
    subst hnil
    simp [simulate_sip, sipBuys, sipBuysGo, cumsum, cumsumGo] at h
  set months := rows.map Row.month with hmonths
  set closes := rows.map Row.close with hcloses
  set buys := sipBuys A months with hbuys
  set unitsB := List.zipWith (fun b c => b / c) buys closes with hunitsB
  have hblen : buys.length = rows.length := by
    rw [hbuys, sipBuys, sipBuysGo_length, hmonths, List.length_map]
  have hclen : closes.length = rows.length := by
    rw [hcloses, List.length_map]
  have hulen : unitsB.length = rows.length := by
    rw [hunitsB, List.length_zipWith, hblen, hclen, Nat.min_self]
  have hrpos : 0 < rows.length := List.length_pos.mpr hne
  have hbne : buys ≠ [] := by
    intro hnil
    rw [hnil] at hblen
    simp at hblen
    omega
  have hune : unitsB ≠ [] := by
    intro hnil
    rw [hnil] at hulen
    simp at hulen
    omega
  rw [simulate_sip] at h
  rw [cumsum, cumsumGo_getLast buys 0 hbne, cumsum, cumsumGo_getLast unitsB 0 hune] at h
  simp only [Option.some.injEq] at h
  have hst : st = ⟨0 + buys.sum, 0 + unitsB.sum,
      List.zipWith (fun u c => u * c) (cumsum unitsB) closes⟩ := h.symm
  subst hst
  refine ⟨?_, ?_, by simp, ?_⟩
  · intro i hi
    rw [hbuys, sipBuys, sipBuysGo_getElem A months [] i hi]
    simp [List.get_eq_getElem]
  · show 0 + buys.sum = A * ((months.dedup.length : ℚ))
    rw [hbuys, sipBuys, sipBuysGo_sum A months []]
    simp [List.card_toFinset]
  · intro i hi
    have hi' : i < rows.length := by omega
    show (List.zipWith (fun u c => u * c) (cumsum unitsB) closes)[i]? = _
    rw [List.getElem?_zipWith]
    rw [cumsum, cumsumGo_getElem unitsB 0 i (by omega)]
    rw [List.getElem?_eq_getElem hi]
    simp

/-- Witness for C2 on a one-day series: close 50, buy 100, 2 units. -/
theorem sip_contract_witness :
    (sipBuys 100 (([⟨0, 50, some 50⟩] : List Row).map Row.month))[0]?
      = some (if (([⟨0, 50, some 50⟩] : List Row).map Row.month)[0]
            ∈ (([⟨0, 50, some 50⟩] : List Row).map Row.month).take 0 then 0 else 100) ∧
    (⟨100, 2, [100]⟩ : PortfolioState).cash_invested
      = 100 * (((([⟨0, 50, some 50⟩] : List Row).map Row.month).dedup.length : ℚ)) ∧
    (⟨100, 2, [100]⟩ : PortfolioState).value_series[0]?
      = some (((List.zipWith (fun b c => b / c)
          (sipBuys 100 (([⟨0, 50, some 50⟩] : List Row).map Row.month))
          (([⟨0, 50, some 50⟩] : List Row).map Row.close)).take 1).sum
        * (([⟨0, 50, some 50⟩] : List Row).map Row.close)[0]) := by
  have H := sip_contract [⟨0, 50, some 50⟩] 100 ⟨100, 2, [100]⟩
      (by norm_num [simulate_sip, sipBuys, sipBuysGo, cumsum, cumsumGo])
  exact ⟨H.1 0 (by decide), H.2.1, H.2.2.2 0 (by decide)⟩

/-! ## The sentiment strategy loop (C3) -/

theorem newsDayStep_holdings_nonneg (s : NewsState) (c : ℚ) (senti : Option ℚ) (b : ℚ)
    (hs : 0 ≤ s.holdings) (hcpos : 0 < c) : 0 ≤ (newsDayStep s c senti b).holdings := by
  unfold newsDayStep newsBuyStep newsSellStep
  have hbuy : ∀ t : NewsState, 0 ≤ t.holdings →
      0 ≤ (if oLT senti (-(3/10)) && decide (0 < t.holdings) then
            (⟨t.holdings - t.holdings * (1/5), t.invested,
              t.reserve + t.holdings * (1/5) * c⟩ : NewsState)
          else t).holdings := by
    intro t ht
    split
    · simp only
      linarith
    · exact ht
  split
  · apply hbuy
    simp only
    have : 0 < b / c := by positivity
    linarith
  · exact hbuy s hs

theorem newsRunGo_holdings_nonneg (days : List (ℚ × Option ℚ × ℚ)) :
    ∀ (s : NewsState), 0 ≤ s.holdings → (∀ d ∈ days, 0 < d.1) →
      ∀ t ∈ newsRunGo s days, 0 ≤ t.holdings := by
  induction days with
  | nil => intro s _ _ t ht; simp [newsRunGo] at ht
  | cons d rest ih =>
      intro s hs hpos t ht
      obtain ⟨c, senti, b⟩ := d
      have hc : 0 < c := hpos (c, senti, b) (List.mem_cons_self _ _)
      have hstep : 0 ≤ (newsDayStep s c senti b).holdings :=
        newsDayStep_holdings_nonneg s c senti b hs hc
      rw [newsRunGo] at ht
      rcases List.mem_cons.mp ht with rfl | ht'
      · exact hstep
      · exact ih (newsDayStep s c senti b) hstep
          (fun q hq => hpos q (List.mem_cons_of_mem _ hq)) t ht'

/-- C3: along the sentiment strategy's day-by-day run, units held stay
nonnegative; a day whose (post-buy) holdings are positive and whose
sentiment is below -0.3 sells exactly 20% of those units at the close,
crediting the proceeds to the cash reserve and leaving cash_invested
untouched; zero holdings at the sell check means no sell; a buy and a sell
can land on the same day; and each day's portfolio value is
`holdings * close + reserve`. -/
theorem news_strategy_invariants (rows : List Row) (noise : Nat → ℚ) (budget : ℚ)
    (hc : ∀ r ∈ rows, 0 < r.close) :
    (∀ s ∈ newsStatesOf rows noise budget, 0 ≤ s.holdings) ∧
    (∀ (s : NewsState) (c : ℚ) (senti : Option ℚ) (b : ℚ),
        (oLT senti (-(3/10)) = true → 0 < (newsBuyStep s c b).holdings →
          newsDayStep s c senti b
            = ⟨(newsBuyStep s c b).holdings - (newsBuyStep s c b).holdings * (1/5),
               (newsBuyStep s c b).invested,
               (newsBuyStep s c b).reserve + (newsBuyStep s c b).holdings * (1/5) * c⟩) ∧
        ((newsBuyStep s c b).holdings = 0 → newsDayStep s c senti b = newsBuyStep s c b)) ∧
    (simulate_news_based_dca rows noise budget).value_series
      = List.zipWith (fun (s : NewsState) c => s.holdings * c + s.reserve)
          (newsStatesOf rows noise budget) (rows.map Row.close) ∧
    newsDayStep ⟨1, 0, 0⟩ 2 (some (-(1/2))) 10
      = ⟨(1 + 10 / 2) * (4/5), 0 + 10, (1 + 10 / 2) * (1/5) * 2⟩ := by
  refine ⟨?_, ?_, rfl, ?_⟩
  · intro s hs
    apply newsRunGo_holdings_nonneg (newsDays rows noise budget) ⟨0, 0, 0⟩ le_rfl ?_ s hs
    intro d hd
    have h1 := (List.of_mem_zip hd).1
    obtain ⟨r, hr, hrc⟩ := List.mem_map.mp h1
    rw [← hrc]
    exact hc r hr
  · intro s c senti b
    constructor
    · intro hsent hpos
      unfold newsDayStep newsSellStep
      rw [if_pos]
      rw [hsent, decide_eq_true hpos]
      rfl
    · intro hz
      unfold newsDayStep newsSellStep
      rw [if_neg]
      rw [hz]
      simp
  · unfold newsDayStep newsBuyStep newsSellStep oLT
    norm_num

/-- Witness for C3: a concrete one-day run, plus a concrete same-day
buy-then-sell step. -/
theorem news_strategy_invariants_witness :
    (simulate_news_based_dca [⟨0, 1, some 50⟩] (fun _ => 0) 100).value_series
      = List.zipWith (fun (s : NewsState) c => s.holdings * c + s.reserve)
          (newsStatesOf [⟨0, 1, some 50⟩] (fun _ => 0) 100)
          (([⟨0, 1, some 50⟩] : List Row).map Row.close) ∧
    newsDayStep ⟨1, 0, 0⟩ 2 (some (-(1/2))) 10
      = ⟨(1 + 10 / 2) * (4/5), 0 + 10, (1 + 10 / 2) * (1/5) * 2⟩ ∧
    newsDayStep ⟨0, 0, 0⟩ 1 (some (-1)) 5
      = ⟨(newsBuyStep ⟨0, 0, 0⟩ 1 5).holdings - (newsBuyStep ⟨0, 0, 0⟩ 1 5).holdings * (1/5),
         (newsBuyStep ⟨0, 0, 0⟩ 1 5).invested,
         (newsBuyStep ⟨0, 0, 0⟩ 1 5).reserve + (newsBuyStep ⟨0, 0, 0⟩ 1 5).holdings * (1/5) * 1⟩ := by
  have H := news_strategy_invariants [⟨0, 1, some 50⟩] (fun _ => 0) 100 (by simp)
  refine ⟨H.2.2.1, H.2.2.2, (H.2.1 ⟨0, 0, 0⟩ 1 (some (-1)) 5).1 ?_ ?_⟩
  · simp only [oLT]
    norm_num
  · norm_num [newsBuyStep]

/-! ## Maximum drawdown (C4) -/

theorem listMin_mem : ∀ (l : List ℚ) (m : ℚ), listMin l = some m → m ∈ l := by
  intro l
  induction l with
  | nil => intro m h; simp [listMin] at h
  | cons x rest ih =>
      intro m h
      rw [listMin] at h
      match hrec : listMin rest with
      | none =>
          rw [hrec] at h
          simp at h
          simp [h]
      | some y =>
          rw [hrec] at h
          simp only [Option.some.injEq] at h
          rcases min_choice x y with hxy | hxy
          · rw [hxy] at h
            simp [← h]
          · rw [hxy] at h
            subst h
            exact List.mem_cons_of_mem x (ih y hrec)

theorem dd_nonpos_go : ∀ (l : List ℚ) (cur : ℚ), 0 < cur → (∀ v ∈ l, 0 < v) →
    ∀ x ∈ List.zipWith (fun v m => (v - m) / m) l (cummaxGo cur l), x ≤ 0 := by
  intro l
  induction l with
  | nil => intro cur _ _ x hx; simp [cummaxGo] at hx
  | cons v rest ih =>
      intro cur hcur hpos x hx
      rw [cummaxGo, List.zipWith_cons_cons] at hx
      have hv : 0 < v := hpos v (List.mem_cons_self _ _)
      have hmax : 0 < max cur v := lt_max_of_lt_left hcur
      rcases List.mem_cons.mp hx with rfl | hx'
      · have hle : v ≤ max cur v := le_max_right cur v
        have : v - max cur v ≤ 0 := by linarith
        exact div_nonpos_of_nonpos_of_nonneg this hmax.le
      · exact ih (max cur v) hmax (fun q hq => hpos q (List.mem_cons_of_mem _ hq)) x hx'

theorem cummaxGo_of_chain : ∀ (l : List ℚ) (cur : ℚ), List.Chain (· ≤ ·) cur l →
    cummaxGo cur l = l := by
  intro l
  induction l with
  | nil => intro cur _; rfl
  | cons x rest ih =>
      intro cur hch
      rcases List.chain_cons.mp hch with ⟨hle, hch'⟩
      rw [cummaxGo, max_eq_right hle, ih x hch']

theorem dd_self_zero : ∀ (l : List ℚ),
    ∀ x ∈ List.zipWith (fun v m => (v - m) / m) l l, x = 0 := by
  intro l
  induction l with
  | nil => intro x hx; simp at hx
  | cons v rest ih =>
      intro x hx
      rw [List.zipWith_cons_cons] at hx
      rcases List.mem_cons.mp hx with rfl | hx'
      · simp
      · exact ih x hx'

/-- C4: on a non-empty positive equity curve, `max_drawdown` returns the
minimum running-max drawdown times 100, this value is never positive, and
it is 0 on a non-decreasing curve. -/
theorem max_drawdown_spec (l : List ℚ) (hne : l ≠ []) (hpos : ∀ v ∈ l, 0 < v) :
    max_drawdown l
      = some (((listMin (List.zipWith (fun v m => (v - m) / m) l (cummax l))).getD 0) * 100) ∧
    ((listMin (List.zipWith (fun v m => (v - m) / m) l (cummax l))).getD 0) * 100 ≤ 0 ∧
    (List.Chain' (· ≤ ·) l →
      ((listMin (List.zipWith (fun v m => (v - m) / m) l (cummax l))).getD 0) * 100 = 0) := by
  match l, hne with
  | x :: rest, _ =>
      have hx : 0 < x := hpos x (List.mem_cons_self _ _)
      have hdd : List.zipWith (fun v m => (v - m) / m) (x :: rest) (cummax (x :: rest))
          = (x - x) / x :: List.zipWith (fun v m => (v - m) / m) rest (cummaxGo x rest) := by
        rw [cummax, List.zipWith_cons_cons]
      obtain ⟨mn, hmn⟩ : ∃ mn,
          listMin (List.zipWith (fun v m => (v - m) / m) (x :: rest) (cummax (x :: rest)))
            = some mn := by
        rw [hdd, listMin]
        exact ⟨_, rfl⟩
      have hnonpos : mn ≤ 0 := by
        have hmem := listMin_mem _ mn hmn
        rw [hdd] at hmem
        rcases List.mem_cons.mp hmem with heq | hmem'
        · rw [heq]
          simp
        · exact dd_nonpos_go rest x hx
            (fun q hq => hpos q (List.mem_cons_of_mem _ hq)) mn hmem'
      refine ⟨?_, ?_, ?_⟩
      · rw [max_drawdown, hmn]
        simp
      · rw [hmn]
        simp only [Option.getD_some]
        linarith
      · intro hch
        have hcm : cummax (x :: rest) = x :: rest := by
          rw [cummax, cummaxGo_of_chain rest x hch]
        have hzero : mn = 0 := by
          have hmem := listMin_mem _ mn hmn
          rw [hcm] at hmem
          exact dd_self_zero (x :: rest) mn hmem
        rw [hmn, hzero]
        simp

/-- Witness for C4 on the spec's example curve [100, 110, 105]. -/
theorem max_drawdown_spec_witness :
    max_drawdown ([100, 110, 105] : List ℚ)
      = some (((listMin (List.zipWith (fun v m => (v - m) / m) ([100, 110, 105] : List ℚ)
          (cummax ([100, 110, 105] : List ℚ)))).getD 0) * 100) ∧
    ((listMin (List.zipWith (fun v m => (v - m) / m) ([100, 110, 105] : List ℚ)
        (cummax ([100, 110, 105] : List ℚ)))).getD 0) * 100 ≤ 0 ∧
    (List.Chain' (· ≤ ·) ([100, 110, 105] : List ℚ) →
      ((listMin (List.zipWith (fun v m => (v - m) / m) ([100, 110, 105] : List ℚ)
          (cummax ([100, 110, 105] : List ℚ)))).getD 0) * 100 = 0) :=
  max_drawdown_spec ([100, 110, 105] : List ℚ) (by simp) (by norm_num)

/-! ## ROI reporting (C5) -/

theorem strategyRow_roi (name : String) (st : PortfolioState) (r : SummaryRow)
    (h : strategyRow name st = some r) : r.roi = roiOf r.invested r.value := by
  rw [strategyRow] at h
  split at h
  · simp only [Option.some.injEq] at h
    subst h
    rfl
  · simp at h

/-- C5 counterexample: a completed SIP portfolio whose final value equals
its invested cash reports ROI 0 with cash_invested = 100 ≠ 0, so ROI = 0
does not hold *exactly* when cash_invested = 0. -/
theorem roi_zero_with_positive_investment :
    roiOf 100 100 = 0 ∧ ((100 : ℚ) ≠ 0) ∧
    simulate_sip [⟨0, 50, some 50⟩] 100 = some ⟨100, 2, [100]⟩ ∧
    (summary_table ⟨100, 2, [100]⟩ ⟨100, 2, [100]⟩ none).map (List.map SummaryRow.roi)
      = some [0, 0] := by
  refine ⟨?_, by norm_num, ?_, ?_⟩
  · norm_num [roiOf]
  · norm_num [simulate_sip, sipBuys, sipBuysGo, cumsum, cumsumGo]
  · norm_num [summary_table, strategyRow, max_drawdown, cummax, cummaxGo, listMin, roiOf]

/-- C5 (amended): every summary row reports `roi = (value − invested) /
invested × 100` when invested is positive and `roi = 0` when invested is
zero; the zero-invested case is a defined fallback, but ROI 0 can also
arise with positive investment. -/
theorem roi_reporting_convention (sip agent : PortfolioState) (news : Option PortfolioState)
    (out : List SummaryRow) (h : summary_table sip agent news = some out) :
    ∀ r ∈ out, (0 < r.invested → r.roi = (r.value - r.invested) / r.invested * 100) ∧
      (r.invested = 0 → r.roi = 0) := by
  have hgen : ∀ r : SummaryRow, r.roi = roiOf r.invested r.value →
      (0 < r.invested → r.roi = (r.value - r.invested) / r.invested * 100) ∧
      (r.invested = 0 → r.roi = 0) := by
    intro r hr
    constructor
    · intro hpos
      rw [hr, roiOf, if_pos hpos]
    · intro hz
      rw [hr, roiOf, hz]
      simp
  rw [summary_table] at h
  split at h
  case _ r1 r2 h1 h2 =>
    split at h
    · simp only [Option.some.injEq] at h
      subst h
      intro r hr
      rcases List.mem_cons.mp hr with rfl | hr'
      · exact hgen r (strategyRow_roi _ sip r h1)
      · rcases List.mem_cons.mp hr' with rfl | hr''
        · exact hgen r (strategyRow_roi _ agent r h2)
        · simp at hr''
    case _ n =>
      split at h
      case _ r3 h3 =>
        simp only [Option.some.injEq] at h
        subst h
        intro r hr
        rcases List.mem_cons.mp hr with rfl | hr'
        · exact hgen r (strategyRow_roi _ sip r h1)
        · rcases List.mem_cons.mp hr' with rfl | hr''
          · exact hgen r (strategyRow_roi _ agent r h2)
          · rcases List.mem_cons.mp hr'' with rfl | hr3
            · exact hgen r (strategyRow_roi _ n r h3)
            · simp at hr3
      · simp at h
  · simp at h

/-- Witness for C5 (amended) on a concrete summary table. -/
theorem roi_reporting_convention_witness :
    ((⟨"Benchmark SIP", 100, 2, 100, 0, 0⟩ : SummaryRow).roi
      = ((⟨"Benchmark SIP", 100, 2, 100, 0, 0⟩ : SummaryRow).value
          - (⟨"Benchmark SIP", 100, 2, 100, 0, 0⟩ : SummaryRow).invested)
        / (⟨"Benchmark SIP", 100, 2, 100, 0, 0⟩ : SummaryRow).invested * 100) := by
  have H := roi_reporting_convention ⟨100, 2, [100]⟩ ⟨100, 2, [100]⟩ none
    [⟨"Benchmark SIP", 100, 2, 100, 0, 0⟩, ⟨"RSI-Based DCA", 100, 2, 100, 0, 0⟩]
    (by norm_num [summary_table, strategyRow, max_drawdown, cummax, cummaxGo, listMin, roiOf])
  exact (H ⟨"Benchmark SIP", 100, 2, 100, 0, 0⟩ (by simp)).1 (by norm_num)

/-! ## Threshold tables (C6, C7) -/

/-- C6: the RSI-based raw daily buy amount is `low` for oscillator < 30,
`mid` for 30 ≤ oscillator < 40, and 0 for oscillator ≥ 40 (hence in
particular 0 for oscillator > 70). -/
theorem rsi_threshold_table (low mid r : ℚ) :
    (r < 30 → agentBuyAmount low mid (some r) = low) ∧
    (30 ≤ r → r < 40 → agentBuyAmount low mid (some r) = mid) ∧
    (40 ≤ r → agentBuyAmount low mid (some r) = 0) ∧
    (70 < r → agentBuyAmount low mid (some r) = 0) := by
  have h40 : ∀ h : 40 ≤ r, agentBuyAmount low mid (some r) = 0 := by
    intro h
    have h1 : ¬ r < 30 := by linarith
    have h2 : ¬ r < 40 := by linarith
    by_cases h70 : 70 < r <;>
      simp [agentBuyAmount, oLT, oGE, oGT, h1, h2, h70]
  refine ⟨?_, ?_, h40, fun h => h40 (by linarith)⟩
  · intro h
    have h2 : ¬ 30 ≤ r := by linarith
    have h3 : ¬ 70 < r := by linarith
    simp [agentBuyAmount, oLT, oGE, oGT, h, h2, h3]
  · intro h1 h2
    have h3 : ¬ r < 30 := by linarith
    have h4 : ¬ 70 < r := by linarith
    simp [agentBuyAmount, oLT, oGE, oGT, h1, h2, h3, h4]

/-- Witness for C6 at oscillator values 25, 35, 45 and 75. -/
theorem rsi_threshold_table_witness :
    agentBuyAmount 150 100 (some 25) = 150 ∧
    agentBuyAmount 150 100 (some 35) = 100 ∧
    agentBuyAmount 150 100 (some 45) = 0 ∧
    agentBuyAmount 150 100 (some 75) = 0 :=
  ⟨(rsi_threshold_table 150 100 25).1 (by norm_num),
   (rsi_threshold_table 150 100 35).2.1 (by norm_num) (by norm_num),
   (rsi_threshold_table 150 100 45).2.2.1 (by norm_num),
   (rsi_threshold_table 150 100 75).2.2.2 (by norm_num)⟩

/-- C7: the sentiment strategy's raw weight is 2 for s > 0.3, 1 for
0 ≤ s ≤ 0.3, and 0 otherwise (all s < 0, covering both the hold band
-0.3 ≤ s < 0 and s < -0.3). -/
theorem sentiment_weight_table (s : ℚ) :
    (3/10 < s → newsWeight (some s) = 2) ∧
    (0 ≤ s → s ≤ 3/10 → newsWeight (some s) = 1) ∧
    (s < 0 → newsWeight (some s) = 0) := by
  refine ⟨?_, ?_, ?_⟩
  · intro h
    have h2 : ¬ s ≤ 3/10 := by linarith
    simp [newsWeight, oGT, oGE, oLE, h, h2]
  · intro h1 h2
    have h3 : ¬ 3/10 < s := by linarith
    simp [newsWeight, oGT, oGE, oLE, h1, h2, h3]
  · intro h
    have h1 : ¬ 3/10 < s := by linarith
    have h2 : ¬ 0 ≤ s := by linarith
    simp [newsWeight, oGT, oGE, oLE, h1, h2]

/-- Witness for C7 at sentiment values 0.5, 0.1, -0.1 and -0.5. -/
theorem sentiment_weight_table_witness :
    newsWeight (some (1/2)) = 2 ∧
    newsWeight (some (1/10)) = 1 ∧
    newsWeight (some (-(1/10))) = 0 ∧
    newsWeight (some (-(1/2))) = 0 :=
  ⟨(sentiment_weight_table (1/2)).1 (by norm_num),
   (sentiment_weight_table (1/10)).2.1 (by norm_num) (by norm_num),
   (sentiment_weight_table (-(1/10))).2.2 (by norm_num),
   (sentiment_weight_table (-(1/2))).2.2 (by norm_num)⟩

/-! ## Sentiment score range (C9) -/

/-- Whether an optional sentiment score is a defined value in [-1, 1]
(a `NaN` score is not). -/
def inUnit (s : Option ℚ) : Bool :=
  match s with
  | some v => decide (-1 ≤ v ∧ v ≤ 1)
  | none => false

theorem mem_zipWith {α β γ : Type} (f : α → β → γ) :
    ∀ (l1 : List α) (l2 : List β) (x : γ), x ∈ List.zipWith f l1 l2 →
      ∃ a b, a ∈ l1 ∧ b ∈ l2 ∧ x = f a b := by
  intro l1
  induction l1 with
  | nil => intro l2 x hx; simp at hx
  | cons a l1 ih =>
      intro l2 x hx
      match l2 with
      | [] => simp at hx
      | b :: l2 =>
          rw [List.zipWith_cons_cons] at hx
          rcases List.mem_cons.mp hx with rfl | hx'
          · exact ⟨a, b, List.mem_cons_self _ _, List.mem_cons_self _ _, rfl⟩
          · obtain ⟨a', b', ha, hb, hx⟩ := ih l2 x hx'
            exact ⟨a', b', List.mem_cons_of_mem _ ha, List.mem_cons_of_mem _ hb, hx⟩

theorem eightOnes_sentiment_eval :
    simulate_news_sentiment ([1, 1, 1, 1, 1, 1, 1, 1] : List ℚ) (fun _ => 0)
      = [none, none, none, none, none, none, none, some 0] := by
  norm_num [simulate_news_sentiment, pctChange7, clip, List.range_succ]

/-- C9 counterexample: on a concrete 8-day series the first seven days'
simulated sentiment scores are `NaN` (the 7-day return is undefined), so
not every day's score is a value in [-1, 1]. -/
theorem sentiment_score_nan_day :
    ¬ (∀ s ∈ simulate_news_sentiment ([1, 1, 1, 1, 1, 1, 1, 1] : List ℚ) (fun _ => 0),
        inUnit s = true) := by
  intro hall
  have h := hall none (by rw [eightOnes_sentiment_eval]; simp)
  simp [inUnit] at h

/-- C9 (amended): every *defined* simulated sentiment score lies in
[-1, 1] (the trailing clip guarantees it), while the scores of the first
seven days of any series are undefined (`NaN`). -/
theorem sentiment_score_range (closes : List ℚ) (noise : Nat → ℚ) :
    (∀ s ∈ simulate_news_sentiment closes noise, ∀ v : ℚ, s = some v → -1 ≤ v ∧ v ≤ 1) ∧
    (∀ s ∈ (simulate_news_sentiment closes noise).take 7, s = none) := by
  constructor
  · intro s hs v hv
    obtain ⟨r, n, _, _, rfl⟩ := mem_zipWith _ _ _ s hs
    match r with
    | none => simp at hv
    | some w =>
        simp only [Option.map_some', Option.some.injEq] at hv
        subst hv
        constructor
        · exact le_min (by norm_num) (le_max_left _ _)
        · exact min_le_left _ _
  · intro s hs
    have htake : (simulate_news_sentiment closes noise).take 7
        = List.zipWith
            (fun r n => r.map (fun v => clip (-1) 1 (clip (-(3/20)) (3/20) v / (3/20) + n)))
            ((pctChange7 closes).take 7) (((List.range closes.length).map noise).take 7) := by
      rw [simulate_news_sentiment, List.take_zipWith]
    rw [htake] at hs
    obtain ⟨r, n, hr, _, rfl⟩ := mem_zipWith _ _ _ s hs
    have hrnone : r = none := by
      rw [pctChange7, ← List.map_take, List.take_range] at hr
      obtain ⟨i, hi, hieq⟩ := List.mem_map.mp hr
      have := List.mem_range.mp hi
      rw [← hieq, if_pos (by omega)]
    rw [hrnone]
    rfl

/-- Witness for C9 (amended): day 8 of the constant series has score 0,
which the theorem places in [-1, 1]. -/
theorem sentiment_score_range_witness : -1 ≤ (0 : ℚ) ∧ (0 : ℚ) ≤ 1 :=
  (sentiment_score_range ([1, 1, 1, 1, 1, 1, 1, 1] : List ℚ) (fun _ => 0)).1
    (some 0) (by rw [eightOnes_sentiment_eval]; simp) 0 rfl

/-! ## Orchestrator error handling and refinement (C8, C10) -/

theorem normGo_length (budget : ℚ) (all : List (Nat × ℚ)) :
    ∀ (rest : List (Nat × ℚ)) (i : Nat), (normGo budget all i rest).length = rest.length := by
  intro rest
  induction rest with
  | nil => intro i; rfl
  | cons p rest ih => intro i; simp [normGo, ih]

theorem inlineAgentBuys_length (sa low mid : ℚ) (eqb : Bool) (df : List Row) :
    (inlineAgentBuys sa low mid eqb df).length = df.length := by
  rw [inlineAgentBuys]
  match eqb with
  | true => simp [normalizeBudget, normGo_length]
  | false => simp

theorem newsRunGo_length (s : NewsState) (days : List (ℚ × Option ℚ × ℚ)) :
    (newsRunGo s days).length = days.length := by
  induction days generalizing s with
  | nil => rfl
  | cons d rest ih =>
      obtain ⟨c, senti, b⟩ := d
      simp [newsRunGo, ih]

theorem pctChange7_length (closes : List ℚ) : (pctChange7 closes).length = closes.length := by
  simp [pctChange7]

theorem simulate_news_sentiment_length (closes : List ℚ) (noise : Nat → ℚ) :
    (simulate_news_sentiment closes noise).length = closes.length := by
  simp [simulate_news_sentiment, pctChange7_length]

theorem newsDays_length (rows : List Row) (noise : Nat → ℚ) (budget : ℚ) :
    (newsDays rows noise budget).length = rows.length := by
  rw [newsDays]
  simp [simulate_news_sentiment_length, newsNormalize, newsNormGo_eq_normGo, normGo_length,
    List.length_zip]

theorem newsStatesOf_length (rows : List Row) (noise : Nat → ℚ) (budget : ℚ) :
    (newsStatesOf rows noise budget).length = rows.length := by
  rw [newsStatesOf, newsRunGo_length, newsDays_length]

theorem news_value_length (rows : List Row) (noise : Nat → ℚ) (budget : ℚ) :
    (simulate_news_based_dca rows noise budget).value_series.length = rows.length := by
  show (List.zipWith _ (newsStatesOf rows noise budget) (rows.map Row.close)).length = _
  simp [List.length_zipWith, newsStatesOf_length]

theorem cummaxGo_length (cur : ℚ) (l : List ℚ) : (cummaxGo cur l).length = l.length := by
  induction l generalizing cur with
  | nil => rfl
  | cons x rest ih => simp [cummaxGo, ih]

theorem listMin_some (l : List ℚ) (hne : l ≠ []) : ∃ m, listMin l = some m := by
  match l, hne with
  | x :: rest, _ => exact ⟨_, rfl⟩

theorem getLast?_some {α : Type} (l : List α) (hne : l ≠ []) : ∃ y, l.getLast? = some y := by
  cases h : l.getLast? with
  | some y => exact ⟨y, rfl⟩
  | none => exact absurd (by simpa using h) hne

theorem simulate_sip_some (rows : List Row) (A : ℚ) (hne : rows ≠ []) :
    ∃ st, simulate_sip rows A = some st ∧ st.value_series.length = rows.length := by
  have hblen : (sipBuys A (rows.map Row.month)).length = rows.length := by
    rw [sipBuys, sipBuysGo_length, List.length_map]
  have hbne : sipBuys A (rows.map Row.month) ≠ [] := by
    intro h
    rw [h] at hblen
    simp at hblen
    exact hne (List.length_eq_zero.mp hblen.symm)
  have hulen : (List.zipWith (fun b c => b / c) (sipBuys A (rows.map Row.month))
      (rows.map Row.close)).length = rows.length := by
    simp [List.length_zipWith, hblen]
  have hune : List.zipWith (fun b c => b / c) (sipBuys A (rows.map Row.month))
      (rows.map Row.close) ≠ [] := by
    intro h
    rw [h] at hulen
    simp at hulen
    exact hne (List.length_eq_zero.mp hulen.symm)
  rw [simulate_sip]
  rw [cumsum, cumsumGo_getLast _ 0 hbne, cumsum, cumsumGo_getLast _ 0 hune]
  refine ⟨_, rfl, ?_⟩
  simp [List.length_zipWith, cumsum, cumsumGo_length, hulen]

theorem agentState_some (df : List Row) (buys : List ℚ)
    (hlen : buys.length = df.length) (hne : df ≠ []) :
    ∃ st, agentState df buys = some st ∧ st.value_series.length = df.length := by
  have hulen : (List.zipWith (fun b c => b / c) buys (df.map Row.close)).length
      = df.length := by
    simp [List.length_zipWith, hlen]
  have hune : List.zipWith (fun b c => b / c) buys (df.map Row.close) ≠ [] := by
    intro h
    rw [h] at hulen
    simp at hulen
    exact hne (List.length_eq_zero.mp hulen.symm)
  rw [agentState]
  rw [cumsum, cumsumGo_getLast _ 0 hune]
  refine ⟨_, rfl, ?_⟩
  simp [List.length_zipWith, cumsum, cumsumGo_length, hulen]

theorem strategyRow_some (name : String) (st : PortfolioState)
    (hne : st.value_series ≠ []) : ∃ r, strategyRow name st = some r := by
  obtain ⟨latest, hlast⟩ := getLast?_some st.value_series hne
  have hddne : List.zipWith (fun v m => (v - m) / m) st.value_series (cummax st.value_series)
      ≠ [] := by
    intro h
    have := congrArg List.length h
    rw [List.length_zipWith] at this
    match hl : st.value_series, hne with
    | x :: rest, _ =>
        rw [hl] at this
        simp [cummax, cummaxGo_length] at this
  obtain ⟨mn, hmn⟩ := listMin_some _ hddne
  rw [strategyRow, hlast, max_drawdown, hmn]
  exact ⟨_, rfl⟩

theorem summary_table_some (sip agent : PortfolioState) (news : Option PortfolioState)
    (h1 : sip.value_series ≠ []) (h2 : agent.value_series ≠ [])
    (h3 : ∀ n, news = some n → n.value_series ≠ []) :
    ∃ out, summary_table sip agent news = some out := by
  obtain ⟨r1, hr1⟩ := strategyRow_some "Benchmark SIP" sip h1
  obtain ⟨r2, hr2⟩ := strategyRow_some "RSI-Based DCA" agent h2
  cases news with
  | none =>
      refine ⟨[r1, r2], ?_⟩
      simp [summary_table, hr1, hr2]
  | some n =>
      obtain ⟨r3, hr3⟩ := strategyRow_some "News Sentiment DCA" n (h3 n rfl)
      refine ⟨[r1, r2, r3], ?_⟩
      simp [summary_table, hr1, hr2, hr3]

theorem run_backtest_ok (rows : List Row) (sa low mid : ℚ) (eqb inc : Bool) (noise : Nat → ℚ)
    (hf : rows.filter (fun r => r.rsi.isSome) ≠ []) :
    ∃ sip agent out,
      simulate_sip (rows.filter (fun r => r.rsi.isSome)) sa = some sip ∧
      agentState (rows.filter (fun r => r.rsi.isSome))
          (inlineAgentBuys sa low mid eqb (rows.filter (fun r => r.rsi.isSome)))
        = some agent ∧
      summary_table sip agent
          (if inc then
            some (simulate_news_based_dca (rows.filter (fun r => r.rsi.isSome)) noise sa)
          else none)
        = some out ∧
      run_backtest rows sa low mid eqb inc noise
        = .ok ⟨out, sip, agent,
            if inc then
              some (simulate_news_based_dca (rows.filter (fun r => r.rsi.isSome)) noise sa)
            else none⟩ := by
  have hrne : rows ≠ [] := by
    intro h
    rw [h] at hf
    simp at hf
  have hdfpos : 0 < (rows.filter (fun r => r.rsi.isSome)).length := List.length_pos.mpr hf
  obtain ⟨sip, hsip, hsiplen⟩ := simulate_sip_some (rows.filter (fun r => r.rsi.isSome)) sa hf
  obtain ⟨agent, hagent, hagentlen⟩ :=
    agentState_some (rows.filter (fun r => r.rsi.isSome))
      (inlineAgentBuys sa low mid eqb (rows.filter (fun r => r.rsi.isSome)))
      (inlineAgentBuys_length ..) hf
  have hnews : ∀ n,
      (if inc then
        some (simulate_news_based_dca (rows.filter (fun r => r.rsi.isSome)) noise sa)
      else none) = some n →
      n.value_series ≠ [] := by
    intro n hn
    match inc, hn with
    | false, hn => exact nomatch hn
    | true, hn =>
        simp only [if_true, Option.some.injEq] at hn
        subst hn
        intro h
        have hlen := congrArg List.length h
        rw [news_value_length, List.length_nil] at hlen
        omega
  obtain ⟨out, hout⟩ := summary_table_some sip agent _
    (by intro h; rw [h, List.length_nil] at hsiplen; omega)
    (by intro h; rw [h, List.length_nil] at hagentlen; omega)
    hnews
  refine ⟨sip, agent, out, hsip, hagent, hout, ?_⟩
  rw [run_backtest]
  rw [if_neg (by simpa [List.isEmpty_iff] using hrne)]
  simp only [hsip, hagent, hout]

/-- C8 counterexample: a non-empty fetched series whose single row lacks an
oscillator value makes the backtest fail with an index error, so failure is
not equivalent to the provider returning an empty series. -/
theorem backtest_nonempty_input_error :
    run_backtest [⟨0, 1, none⟩] 100 150 100 false false (fun _ => 0)
      = .error .indexError ∧
    ([⟨0, 1, none⟩] : List Row) ≠ [] := by
  constructor
  · norm_num [run_backtest, simulate_sip, sipBuys, sipBuysGo, cumsum, cumsumGo]
  · simp

/-- C8 (amended): the fatal fetch error occurs exactly on an empty fetched
series; the backtest completes exactly when at least one row survives the
oscillator filter (otherwise a non-fetch index error occurs); and the SIP
leg of a completed run is computed on the series with undefined-oscillator
rows excluded. -/
theorem backtest_error_conditions (rows : List Row) (sa low mid : ℚ) (eqb inc : Bool)
    (noise : Nat → ℚ) :
    ((run_backtest rows sa low mid eqb inc noise = .error .fetchEmpty) ↔ rows = []) ∧
    (btOk (run_backtest rows sa low mid eqb inc noise) = true
        ↔ rows.filter (fun r => r.rsi.isSome) ≠ []) ∧
    ((run_backtest rows sa low mid eqb inc noise).toOption.map BtResult.sip
        = simulate_sip (rows.filter (fun r => r.rsi.isSome)) sa) := by
  by_cases hnil : rows = []
  · subst hnil
    refine ⟨by simp [run_backtest], ?_, ?_⟩
    · simp [run_backtest, btOk]
    · simp [run_backtest, Except.toOption]
      rfl
  · by_cases hfil : rows.filter (fun r => r.rsi.isSome) = []
    · have hnone : simulate_sip ([] : List Row) sa = none := rfl
      have hrun : run_backtest rows sa low mid eqb inc noise = .error .indexError := by
        rw [run_backtest, if_neg (by simpa [List.isEmpty_iff] using hnil)]
        simp only [hfil, hnone]
      refine ⟨?_, ?_, ?_⟩
      · rw [hrun]
        simp [hnil]
      · rw [hrun]
        simp [btOk, hfil]
      · rw [hrun, hfil, hnone]
        rfl
    · obtain ⟨sip, agent, out, h1, h2, h3, h4⟩ :=
        run_backtest_ok rows sa low mid eqb inc noise hfil
      refine ⟨?_, ?_, ?_⟩
      · rw [h4]
        simp [hnil]
      · rw [h4]
        simp [btOk, hfil]
      · rw [h4, h1]
        rfl

/-- C10: with all oscillator values defined, budget normalization disabled
and the default amounts 150/100, the orchestrator's inline RSI strategy
produces exactly the portfolio state of the standalone RSI simulator. -/
theorem inline_agent_refines_simulator (rows : List Row) (sa : ℚ) (inc : Bool)
    (noise : Nat → ℚ) (hne : rows ≠ []) (hall : ∀ r ∈ rows, r.rsi.isSome) :
    btOk (run_backtest rows sa 150 100 false inc noise) = true ∧
    (run_backtest rows sa 150 100 false inc noise).toOption.map BtResult.agent
      = simulate_agentic_dca rows := by
  have hfeq : rows.filter (fun r => r.rsi.isSome) = rows :=
    List.filter_eq_self.mpr (by simpa using hall)
  have hf : rows.filter (fun r => r.rsi.isSome) ≠ [] := by
    rw [hfeq]
    exact hne
  obtain ⟨sip, agent, out, h1, h2, h3, h4⟩ :=
    run_backtest_ok rows sa 150 100 false inc noise hf
  have hbuys : inlineAgentBuys sa 150 100 false rows
      = rows.map (fun r => agentBuyAmount 150 100 r.rsi) := by
    simp [inlineAgentBuys, List.map_map]
  rw [hfeq, hbuys] at h2
  constructor
  · rw [h4]
    rfl
  · rw [h4, simulate_agentic_dca, h2]
    rfl

/-- Witness for C10 on a one-row series with a defined oscillator. -/
theorem inline_agent_refines_simulator_witness :
    btOk (run_backtest [⟨0, 50, some 20⟩] 100 150 100 false false (fun _ => 0)) = true ∧
    (run_backtest [⟨0, 50, some 20⟩] 100 150 100 false false (fun _ => 0)).toOption.map
        BtResult.agent
      = simulate_agentic_dca [⟨0, 50, some 20⟩] :=
  inline_agent_refines_simulator [⟨0, 50, some 20⟩] 100 false (fun _ => 0)
    (by simp) (by simp)
